import Mathlib

/-!
Shallow embedding of the `oxide` header-only library (a Rust-flavored wrapper
over C++ standard containers) and proofs of its specification's claims.

The sequence container `oxide::Vec<T>` (src/include/oxide.hpp) wraps
`std::vector<T>`; we model its element sequence as a `List α`.  Fallible
operations (`insert`, `remove`, `drain`) throw `std::out_of_range`; we model a
throwing call as an `Except String` result paired with the vector state
observed by the caller after the call (unchanged when the source throws before
any mutation, as it does in every modelled operation).

The owning optional-value container `oxide::Option<T>` (src/unnamed/part_004)
keeps a presence flag and an inline buffer that holds a live value exactly
when the flag is set; we model it as the inductive `OOption` with constructors
mirroring the absent / present states.  Its `panic` on contract violation is
modelled as an `Except String` error.
-/

namespace Oxide

namespace Vec

/-- Model of `Vec::get(index)` (oxide.hpp:204): `Some(ref to data()[index])` when
`index < size()`, otherwise `None`. -/
def get (v : List α) (i : Nat) : Option α :=
  if h : i < v.length then some (v.get ⟨i, h⟩) else none

/-- State-passing view of `Vec::get`: the call performs no mutation, so the
vector after the call is the vector before it. -/
def getSt (v : List α) (i : Nat) : Option α × List α :=
  (get v i, v)

/-- Model of `Vec::push(value)` (oxide.hpp:231): `push_back`, appended at the tail. -/
def push (v : List α) (x : α) : List α :=
  v ++ [x]

/-- Model of `Vec::pop()` (oxide.hpp:187): if empty return `None` leaving the vector
unchanged, else move out the back element, `pop_back`, and return it. -/
def pop (v : List α) : Option α × List α :=
  if v.isEmpty then (none, v) else (v.getLast?, v.dropLast)

/-- Pushing a whole sequence of values in order (repeated `Vec::push`). -/
def pushAll (v : List α) (ws : List α) : List α :=
  ws.foldl push v

/-- Calling `Vec::pop()` `n` times in sequence, collecting the returned
options and the final vector state. -/
def popN (v : List α) : Nat → List (Option α) × List α
  | 0 => ([], v)
  | n + 1 =>
    let p := pop v
    let rest := popN p.2 n
    (p.1 :: rest.1, rest.2)

/-- Model of `Vec::insert(index, value)` (oxide.hpp:243): throws `std::out_of_range`
when `index > size()`, leaving the vector untouched; otherwise inserts at
`begin() + index`, shifting the tail right by one. -/
def insertSt (v : List α) (i : Nat) (x : α) : Except String Unit × List α :=
  if i > v.length then (.error "insert index out of bounds", v)
  else (.ok (), v.take i ++ x :: v.drop i)

/-- Model of `Vec::remove(index)` (oxide.hpp:258): throws `std::out_of_range` when
`index >= size()`, leaving the vector untouched; otherwise moves out the
element at `index` and erases its slot, shifting the tail left by one. -/
def removeSt (v : List α) (i : Nat) : Except String α × List α :=
  if h : i < v.length then (.ok (v.get ⟨i, h⟩), v.take i ++ v.drop (i + 1))
  else (.error "remove index out of bounds", v)

/-- Model of `Vec::truncate(len)` (oxide.hpp:118): when `len < size()`, erases
`[begin() + len, end())`; otherwise does nothing.  `noexcept`. -/
def truncate (v : List α) (len : Nat) : List α :=
  if len < v.length then v.take len else v

/-- The state of a live `Vec::DrainIterator` (oxide.hpp:354): the range
bounds `start_`, `end_` fixed at construction, and the cursor `index_`. -/
structure DrainIterator where
  start_ : Nat
  index_ : Nat
  end_ : Nat
  deriving Repr, DecidableEq

/-- The `Vec::DrainSentinel` (oxide.hpp:423): carries the `end_` bound the
iterator is compared against. -/
structure DrainSentinel where
  end_ : Nat
  deriving Repr, DecidableEq

/-- The `DrainIterator` constructor (oxide.hpp:363): records
`start_ = start`, `index_ = start`, `end_ = end`, throwing
`std::out_of_range` when `start > end` or `end > vec->size()`. -/
def mkDrainIterator (len start end_ : Nat) : Except String DrainIterator :=
  if start > end_ ∨ end_ > len then .error "drain range out of bounds"
  else .ok ⟨start, start, end_⟩

/-- Model of `DrainIterator::operator++` (oxide.hpp:394): advances the cursor. -/
def DrainIterator.next (it : DrainIterator) : DrainIterator :=
  { it with index_ := it.index_ + 1 }

/-- Model of `DrainIterator::operator*` (oxide.hpp:390): reads (moves out of) the
element at `index_` through `Vec::operator[]`, whose bounds check is modelled
by `Vec.get`. -/
def DrainIterator.deref (it : DrainIterator) (v : List α) : Option α :=
  get v it.index_

/-- Model of `DrainIterator::~DrainIterator` (oxide.hpp:409): on destruction of a live
iterator, erases `[begin() + start_, begin() + end_)` from the backing vector
in one operation. -/
def DrainIterator.destroy (it : DrainIterator) (v : List α) : List α :=
  v.take it.start_ ++ v.drop it.end_

/-- Consuming `k` elements from a drain iterator: each step dereferences the
cursor (`operator*`) and advances it (`operator++`); the vector itself is not
modified before the iterator's destructor runs. -/
def consumeN (v : List α) (it : DrainIterator) : Nat → List (Option α) × DrainIterator
  | 0 => ([], it)
  | k + 1 =>
    let x := it.deref v
    let rest := consumeN v it.next k
    (x :: rest.1, rest.2)

/-- Model of `Vec::drain(range)` (oxide.hpp:440) with the range already reduced to its
index pair `(a, b)`: validates `a > b ∨ b > size()` eagerly (throwing
`std::out_of_range` before any element is touched), then builds the
`DrainIterator` / `DrainSentinel` pair.  The call itself performs no
mutation, so the vector state observed after it is the input vector. -/
def drainSt (v : List α) (a b : Nat) :
    Except String (DrainIterator × DrainSentinel) × List α :=
  if a > b ∨ b > v.length then (.error "drain range out of bounds", v)
  else
    match mkDrainIterator v.length a b with
    | .error e => (.error e, v)
    | .ok it => (.ok (it, ⟨b⟩), v)

end Vec

/-- The owning `oxide::Option<T>` (src/unnamed/part_004): a presence flag and
an inline buffer holding a live `T` exactly when the flag is set.  The
constructors mirror the two reachable states (flag clear / flag set with a
constructed value). -/
inductive OOption (α : Type) where
  | absent : OOption α
  | present (a : α) : OOption α
  deriving Repr, DecidableEq

namespace OOption

/-- Model of `Option<T>::has_value()` (part_004:94). -/
def has_value : OOption α → Bool
  | .absent => false
  | .present _ => true

/-- Model of `Option<T>::value()` (part_004:97): `panic("called Option::value() on
None")` when the flag is clear — modelled as an abort-class `Except` error,
never a read of the buffer — otherwise returns the held value. -/
def value : OOption α → Except String α
  | .absent => .error "called Option::value() on None"
  | .present a => .ok a

/-- Model of `Option<T>::unwrap()` (part_004:114): delegates to `value()`. -/
def unwrap (o : OOption α) : Except String α :=
  value o

/-- State-passing view of `value()`: the accessor performs no writes, so the
container after the call is the container before it. -/
def valueSt (o : OOption α) : Except String α × OOption α :=
  (value o, o)

/-- Model of `Option<T>::and_then(f)` (part_004:142/157): when absent, returns an
absent `Option` of `f`'s declared result value type; when present, returns
the result of applying `f` to the held value. -/
def and_then (o : OOption α) (f : α → OOption β) : OOption β :=
  match o with
  | .absent => .absent
  | .present a => f a

/-- Effect-instrumented translation of `and_then`: the boolean records
whether control reached the call of `f` (true exactly when `f`'s side
effects would occur).  The source calls `f` only in the present branch. -/
def and_thenTr (o : OOption α) (f : α → OOption β) : OOption β × Bool :=
  match o with
  | .absent => (.absent, false)
  | .present a => (f a, true)

end OOption

/-- Model of `oxide::find(range, pred)` (oxide.hpp:468): iterates the range in order,
returning `Some` of the first element satisfying the predicate, or `None`
when no element does. -/
def find (l : List α) (p : α → Bool) : Option α :=
  match l with
  | [] => none
  | x :: xs => if p x then some x else find xs p

/-- Effect-instrumented translation of `oxide::find`: additionally counts how
many elements the predicate was applied to, so that "elements after the first
match are not tested" is expressible. -/
def findCount (l : List α) (p : α → Bool) : Option α × Nat :=
  match l with
  | [] => (none, 0)
  | x :: xs =>
    if p x then (some x, 1)
    else
      let rest := findCount xs p
      (rest.1, rest.2 + 1)

end Oxide

/-- The bounds-checked accessor agrees with optional indexing on lists. -/
theorem Oxide.Vec.get_eq_getElem? {α : Type} (v : List α) (i : Nat) :
    Oxide.Vec.get v i = v[i]? := by
  by_cases h : i < v.length
  · rw [Oxide.Vec.get, dif_pos h, List.getElem?_eq_getElem h, List.get_eq_getElem]
  · rw [Oxide.Vec.get, dif_neg h, eq_comm, List.getElem?_eq_none_iff]
    omega

/-- C3: `get(index)` returns a present option wrapping the element at
`index` when `index < length()`, and an absent option for every
`index ≥ length()`; the call never throws (it is total, returning an
in-band option rather than an `Except`) and never modifies the vector. -/
theorem get_spec {α : Type} (v : List α) (i : Nat) :
    (∀ h : i < v.length, Oxide.Vec.get v i = some (v.get ⟨i, h⟩)) ∧
    (v.length ≤ i → Oxide.Vec.get v i = none) ∧
    Oxide.Vec.getSt v i = (Oxide.Vec.get v i, v) := by
  refine ⟨fun h => ?_, fun h => ?_, rfl⟩
  · rw [Oxide.Vec.get, dif_pos h]
  · rw [Oxide.Vec.get, dif_neg (by omega)]

/-- Witness for C3 at a concrete vector: index 1 of `[10, 20]` is present,
index 5 is absent. -/
theorem get_spec_witness :
    Oxide.Vec.get ([10, 20] : List Nat) 1 = some 20 ∧
    Oxide.Vec.get ([10, 20] : List Nat) 5 = none := by
  refine ⟨?_, (get_spec [10, 20] 5).2.1 (by decide)⟩
  have h := (get_spec ([10, 20] : List Nat) 1).1 (by decide)
  simpa using h

/-- C9: `truncate(len)` leaves the vector unchanged when `len ≥ length()`,
and otherwise shortens it to exactly `len` elements by dropping the tail,
preserving the first `len` elements in order; it is total (`noexcept`). -/
theorem truncate_spec {α : Type} (v : List α) (len : Nat) :
    (v.length ≤ len → Oxide.Vec.truncate v len = v) ∧
    (len < v.length →
      (Oxide.Vec.truncate v len).length = len ∧
      ∀ i, i < len → (Oxide.Vec.truncate v len)[i]? = v[i]?) := by
  constructor
  · intro h
    rw [Oxide.Vec.truncate, if_neg (by omega)]
  · intro h
    rw [Oxide.Vec.truncate, if_pos h]
    refine ⟨by rw [List.length_take]; omega, fun i hi => ?_⟩
    rw [List.getElem?_take, if_pos hi]

/-- Witness for C9 at a concrete vector: truncating `[1, 2, 3]` to 5 is the
identity; truncating it to 2 yields a length-2 prefix with element 1 kept. -/
theorem truncate_spec_witness :
    Oxide.Vec.truncate ([1, 2, 3] : List Nat) 5 = [1, 2, 3] ∧
    (Oxide.Vec.truncate ([1, 2, 3] : List Nat) 2).length = 2 ∧
    (Oxide.Vec.truncate ([1, 2, 3] : List Nat) 2)[1]? = ([1, 2, 3] : List Nat)[1]? := by
  refine ⟨(truncate_spec [1, 2, 3] 5).1 (by decide), ?_, ?_⟩
  · exact ((truncate_spec ([1, 2, 3] : List Nat) 2).2 (by decide)).1
  · exact ((truncate_spec ([1, 2, 3] : List Nat) 2).2 (by decide)).2 1 (by decide)

/-- C8: constructing a present owning `Option` from `v` and calling
`value()` / `unwrap()` returns `v`; the read leaves the container unchanged
and a second read returns the same value; calling the accessor on an absent
owning `Option` is an abort-class failure (`panic`), never a silent read. -/
theorem value_spec {α : Type} (v : α) :
    Oxide.OOption.value (Oxide.OOption.present v) = .ok v ∧
    Oxide.OOption.valueSt (Oxide.OOption.present v) = (.ok v, Oxide.OOption.present v) ∧
    Oxide.OOption.value (Oxide.OOption.valueSt (Oxide.OOption.present v)).2 = .ok v ∧
    Oxide.OOption.unwrap (Oxide.OOption.present v) = .ok v ∧
    Oxide.OOption.value (Oxide.OOption.absent : Oxide.OOption α) =
      .error "called Option::value() on None" ∧
    Oxide.OOption.unwrap (Oxide.OOption.absent : Oxide.OOption α) =
      .error "called Option::value() on None" :=
  ⟨rfl, rfl, rfl, rfl, rfl, rfl⟩

/-- C7: `and_then(f)` on an absent owning `Option` returns an absent
`Option` of `f`'s result value type without invoking `f` (the instrumented
translation records that control never reaches the call of `f`); on a
present `Option` it returns exactly `f` applied to the held value. -/
theorem and_then_spec {α β : Type} (f : α → Oxide.OOption β) (v : α) :
    Oxide.OOption.and_then (Oxide.OOption.absent : Oxide.OOption α) f =
      (Oxide.OOption.absent : Oxide.OOption β) ∧
    Oxide.OOption.and_thenTr (Oxide.OOption.absent : Oxide.OOption α) f =
      ((Oxide.OOption.absent : Oxide.OOption β), false) ∧
    Oxide.OOption.and_then (Oxide.OOption.present v) f = f v ∧
    Oxide.OOption.and_thenTr (Oxide.OOption.present v) f = (f v, true) :=
  ⟨rfl, rfl, rfl, rfl⟩

/-- C4: for `i ≤ length()`, `insert(i, x)` succeeds, places `x` at index `i`
(`get(i)` afterwards returns `x`), keeps the elements before `i` in place,
moves the element previously at index `j ≥ i` to `j + 1`, and grows the
length by one; for `i > length()` it throws and leaves the vector
unchanged. -/
theorem insert_spec {α : Type} (v : List α) (i : Nat) (x : α) :
    (i ≤ v.length →
      (Oxide.Vec.insertSt v i x).1 = .ok () ∧
      ((Oxide.Vec.insertSt v i x).2).length = v.length + 1 ∧
      Oxide.Vec.get (Oxide.Vec.insertSt v i x).2 i = some x ∧
      (∀ j, j < i → ((Oxide.Vec.insertSt v i x).2)[j]? = v[j]?) ∧
      (∀ j, i ≤ j → ((Oxide.Vec.insertSt v i x).2)[j + 1]? = v[j]?)) ∧
    (v.length < i →
      Oxide.Vec.insertSt v i x = (.error "insert index out of bounds", v)) := by
  constructor
  · intro h
    rw [Oxide.Vec.insertSt, if_neg (by omega)]
    have htl : (v.take i).length = i := by rw [List.length_take]; omega
    refine ⟨rfl, ?_, ?_, fun j hj => ?_, fun j hj => ?_⟩
    · simp only [List.length_append, List.length_cons, htl, List.length_drop]
      omega
    · rw [Oxide.Vec.get_eq_getElem?, List.getElem?_append_right (by omega), htl,
        Nat.sub_self, List.getElem?_cons_zero]
    · rw [List.getElem?_append_left (by omega), List.getElem?_take, if_pos hj]
    · obtain ⟨k, rfl⟩ := Nat.exists_eq_add_of_le hj
      rw [List.getElem?_append_right (by omega), htl]
      have hk : i + k + 1 - i = k + 1 := by omega
      rw [hk, List.getElem?_cons_succ, List.getElem?_drop]
  · intro h
    rw [Oxide.Vec.insertSt, if_pos (by omega)]

/-- Witness for C4: inserting 9 at index 1 of `[1, 2, 3]` succeeds with the
expected reads, and inserting at index 7 fails leaving the vector
unchanged. -/
theorem insert_spec_witness :
    (Oxide.Vec.insertSt ([1, 2, 3] : List Nat) 1 9).1 = .ok () ∧
    Oxide.Vec.get (Oxide.Vec.insertSt ([1, 2, 3] : List Nat) 1 9).2 1 = some 9 ∧
    ((Oxide.Vec.insertSt ([1, 2, 3] : List Nat) 1 9).2)[2]? =
      ([1, 2, 3] : List Nat)[1]? ∧
    Oxide.Vec.insertSt ([1, 2, 3] : List Nat) 7 9 =
      (.error "insert index out of bounds", [1, 2, 3]) := by
  have h := (insert_spec ([1, 2, 3] : List Nat) 1 9).1 (by decide)
  exact ⟨h.1, h.2.2.1, h.2.2.2.2 1 (by decide),
    (insert_spec ([1, 2, 3] : List Nat) 7 9).2 (by decide)⟩

/-- C5: for `i < length()`, `remove(i)` returns the element previously at
index `i`, keeps the elements before `i` in place, moves the element
previously at index `j > i` to `j - 1`, and shrinks the length by exactly
one; for `i ≥ length()` it throws and leaves the vector unchanged. -/
theorem remove_spec {α : Type} (v : List α) (i : Nat) :
    (∀ h : i < v.length,
      (Oxide.Vec.removeSt v i).1 = .ok (v.get ⟨i, h⟩) ∧
      ((Oxide.Vec.removeSt v i).2).length = v.length - 1 ∧
      (∀ j, j < i → ((Oxide.Vec.removeSt v i).2)[j]? = v[j]?) ∧
      (∀ j, i ≤ j → ((Oxide.Vec.removeSt v i).2)[j]? = v[j + 1]?)) ∧
    (v.length ≤ i →
      Oxide.Vec.removeSt v i = (.error "remove index out of bounds", v)) := by
  constructor
  · intro h
    rw [Oxide.Vec.removeSt, dif_pos h]
    have htl : (v.take i).length = i := by rw [List.length_take]; omega
    refine ⟨rfl, ?_, fun j hj => ?_, fun j hj => ?_⟩
    · simp only [List.length_append, htl, List.length_drop]
      omega
    · rw [List.getElem?_append_left (by omega), List.getElem?_take, if_pos hj]
    · obtain ⟨k, rfl⟩ := Nat.exists_eq_add_of_le hj
      rw [List.getElem?_append_right (by omega), htl]
      have hk : i + k - i = k := by omega
      rw [hk, List.getElem?_drop]
      congr 1
      omega
  · intro h
    rw [Oxide.Vec.removeSt, dif_neg (by omega)]

/-- Witness for C5: removing index 1 of `[4, 5, 6]` returns 5 and shifts 6
down; removing index 3 fails leaving the vector unchanged. -/
theorem remove_spec_witness :
    (Oxide.Vec.removeSt ([4, 5, 6] : List Nat) 1).1 = .ok 5 ∧
    ((Oxide.Vec.removeSt ([4, 5, 6] : List Nat) 1).2).length = 2 ∧
    ((Oxide.Vec.removeSt ([4, 5, 6] : List Nat) 1).2)[1]? =
      ([4, 5, 6] : List Nat)[2]? ∧
    Oxide.Vec.removeSt ([4, 5, 6] : List Nat) 3 =
      (.error "remove index out of bounds", [4, 5, 6]) := by
  have h := (remove_spec ([4, 5, 6] : List Nat) 1).1 (by decide)
  exact ⟨h.1, h.2.1, h.2.2.2 1 (by decide),
    (remove_spec ([4, 5, 6] : List Nat) 3).2 (by decide)⟩

/-- Repeatedly pushing appends the pushed sequence at the tail in order. -/
theorem Oxide.Vec.pushAll_eq_append {α : Type} (ws v : List α) :
    Oxide.Vec.pushAll v ws = v ++ ws := by
  induction ws generalizing v with
  | nil => simp [Oxide.Vec.pushAll]
  | cons w ws ih =>
    rw [Oxide.Vec.pushAll, List.foldl_cons]
    have h := ih (Oxide.Vec.push v w)
    rw [Oxide.Vec.pushAll] at h
    rw [h, Oxide.Vec.push]
    simp

/-- Popping a vector with tail element `x` yields `some x` and drops it. -/
theorem Oxide.Vec.pop_concat {α : Type} (ys : List α) (x : α) :
    Oxide.Vec.pop (ys ++ [x]) = (some x, ys) := by
  rw [Oxide.Vec.pop, if_neg (by simp)]
  rw [List.getLast?_concat, List.dropLast_concat]

/-- Popping a vector as many times as it has elements yields all elements,
present, in reverse order, and empties the vector. -/
theorem Oxide.Vec.popN_full {α : Type} (ws : List α) :
    Oxide.Vec.popN ws ws.length = (ws.reverse.map some, []) := by
  induction ws using List.reverseRecOn with
  | nil => rfl
  | append_singleton ys x ih =>
    have hlen : (ys ++ [x]).length = ys.length + 1 := by simp
    rw [hlen, Oxide.Vec.popN, Oxide.Vec.pop_concat]
    simp only [ih, List.reverse_append, List.reverse_cons, List.reverse_nil,
      List.nil_append, List.cons_append, List.map_cons]

/-- C6: pushing `n` values onto an empty vector and popping `n` times
returns the values in reverse insertion order, each wrapped in a present
option, leaving the vector empty; popping an empty vector returns an absent
option and leaves it unchanged. -/
theorem push_pop_spec {α : Type} (ws : List α) :
    Oxide.Vec.popN (Oxide.Vec.pushAll [] ws) ws.length = (ws.reverse.map some, []) ∧
    Oxide.Vec.pop ([] : List α) = (none, []) := by
  rw [Oxide.Vec.pushAll_eq_append, List.nil_append]
  exact ⟨Oxide.Vec.popN_full ws, rfl⟩

/-- The embedded `oxide::find` agrees with first-match search on lists. -/
theorem Oxide.find_eq_find? {α : Type} (l : List α) (p : α → Bool) :
    Oxide.find l p = l.find? p := by
  induction l with
  | nil => rfl
  | cons x xs ih =>
    by_cases hx : p x
    · rw [Oxide.find, if_pos hx, List.find?_cons_of_pos _ hx]
    · rw [Oxide.find, if_neg hx, List.find?_cons_of_neg _ (by simp [hx]), ih]

/-- The instrumented search returns the same result as `oxide::find` and
tests exactly the elements up to and including the first match. -/
theorem Oxide.findCount_spec {α : Type} (l : List α) (p : α → Bool) :
    (Oxide.findCount l p).1 = Oxide.find l p ∧
    (Oxide.findCount l p).2 =
      (l.takeWhile (fun x => !p x)).length +
        (if (Oxide.find l p).isSome then 1 else 0) := by
  induction l with
  | nil => exact ⟨rfl, rfl⟩
  | cons x xs ih =>
    by_cases hx : p x
    · rw [Oxide.findCount, Oxide.find]
      simp [hx]
    · rw [Oxide.findCount, Oxide.find]
      simp only [hx, if_false, Bool.false_eq_true, List.takeWhile_cons,
        Bool.not_false, if_true, List.length_cons]
      refine ⟨ih.1, ?_⟩
      rw [ih.2]
      omega

/-- C10: `find(range, pred)` returns a present option holding the first
element (in iteration order) satisfying the predicate, an absent option when
no element satisfies it, and does not test elements after the first match
(the instrumented count equals the index of the first match plus one). -/
theorem find_spec {α : Type} (l : List α) (p : α → Bool) :
    Oxide.find l p = l.find? p ∧
    (Oxide.find l p = none ↔ ∀ x ∈ l, p x = false) ∧
    (Oxide.findCount l p).1 = Oxide.find l p ∧
    (Oxide.findCount l p).2 =
      (l.takeWhile (fun x => !p x)).length +
        (if (Oxide.find l p).isSome then 1 else 0) := by
  refine ⟨Oxide.find_eq_find? l p, ?_, (Oxide.findCount_spec l p).1,
    (Oxide.findCount_spec l p).2⟩
  rw [Oxide.find_eq_find?, List.find?_eq_none]
  simp

/-- Consuming elements only moves the cursor: the range bounds recorded at
construction are untouched by any number of advances. -/
theorem Oxide.Vec.consumeN_bounds {α : Type} (v : List α)
    (it : Oxide.Vec.DrainIterator) (k : Nat) :
    ((Oxide.Vec.consumeN v it k).2).start_ = it.start_ ∧
    ((Oxide.Vec.consumeN v it k).2).end_ = it.end_ := by
  induction k generalizing it with
  | zero => exact ⟨rfl, rfl⟩
  | succ k ih =>
    rw [Oxide.Vec.consumeN]
    exact ⟨(ih it.next).1, (ih it.next).2⟩

/-- C1: for a valid range `a ≤ b ≤ n`, `drain([a, b))` succeeds, and
destroying the iterator after any number `k` of consumption steps — none,
some, or all — leaves the vector with length `n - (b - a)`, the elements
below `a` in place, and the element originally at `b + j` now at `a + j`:
the `[a, b)` range is excised with relative order preserved. -/
theorem drain_spec {α : Type} (v : List α) (a b : Nat)
    (hab : a ≤ b) (hb : b ≤ v.length) :
    (Oxide.Vec.drainSt v a b).1 =
      .ok (⟨a, a, b⟩, (⟨b⟩ : Oxide.Vec.DrainSentinel)) ∧
    (Oxide.Vec.drainSt v a b).2 = v ∧
    ∀ k : Nat,
      (((Oxide.Vec.consumeN v (⟨a, a, b⟩ : Oxide.Vec.DrainIterator) k).2).destroy v).length =
          v.length - (b - a) ∧
      (∀ i, i < a →
        (((Oxide.Vec.consumeN v (⟨a, a, b⟩ : Oxide.Vec.DrainIterator) k).2).destroy v)[i]? =
          v[i]?) ∧
      (∀ j,
        (((Oxide.Vec.consumeN v (⟨a, a, b⟩ : Oxide.Vec.DrainIterator) k).2).destroy v)[a + j]? =
          v[b + j]?) := by
  have hcond : ¬(a > b ∨ b > v.length) := by omega
  refine ⟨?_, ?_, fun k => ?_⟩
  · rw [Oxide.Vec.drainSt, if_neg hcond, Oxide.Vec.mkDrainIterator, if_neg hcond]
  · rw [Oxide.Vec.drainSt, if_neg hcond, Oxide.Vec.mkDrainIterator, if_neg hcond]
  · have hbnd := Oxide.Vec.consumeN_bounds v (⟨a, a, b⟩ : Oxide.Vec.DrainIterator) k
    have hdes :
        ((Oxide.Vec.consumeN v (⟨a, a, b⟩ : Oxide.Vec.DrainIterator) k).2).destroy v =
          v.take a ++ v.drop b := by
      rw [Oxide.Vec.DrainIterator.destroy, hbnd.1, hbnd.2]
    have htl : (v.take a).length = a := by rw [List.length_take]; omega
    rw [hdes]
    refine ⟨?_, fun i hi => ?_, fun j => ?_⟩
    · rw [List.length_append, htl, List.length_drop]
      omega
    · rw [List.getElem?_append_left (by omega), List.getElem?_take, if_pos hi]
    · rw [List.getElem?_append_right (by omega), htl, Nat.add_sub_cancel_left,
        List.getElem?_drop]

/-- Witness for C1, the spec's concrete scenario: `[10, 20, 30, 40, 50]`,
`drain([1, 3))`, consume one element, abandon — the excision leaves
`[10, 40, 50]`. -/
theorem drain_spec_witness :
    (Oxide.Vec.drainSt ([10, 20, 30, 40, 50] : List Nat) 1 3).1 =
      .ok (⟨1, 1, 3⟩, (⟨3⟩ : Oxide.Vec.DrainSentinel)) ∧
    (((Oxide.Vec.consumeN ([10, 20, 30, 40, 50] : List Nat)
        (⟨1, 1, 3⟩ : Oxide.Vec.DrainIterator) 1).2).destroy
        [10, 20, 30, 40, 50]).length = 3 ∧
    ((Oxide.Vec.consumeN ([10, 20, 30, 40, 50] : List Nat)
        (⟨1, 1, 3⟩ : Oxide.Vec.DrainIterator) 1).2).destroy
        [10, 20, 30, 40, 50] = [10, 40, 50] := by
  have h := drain_spec ([10, 20, 30, 40, 50] : List Nat) 1 3 (by decide) (by decide)
  exact ⟨h.1, ((h.2.2) 1).1, by decide⟩

/-- C2: `drain([a, b))` with `a > b` or `b > length()` throws
`std::out_of_range` at construction, and the vector observed after the
failed call is unchanged — no element is removed, moved out, or
destroyed. -/
theorem drain_invalid_spec {α : Type} (v : List α) (a b : Nat)
    (h : b < a ∨ v.length < b) :
    (Oxide.Vec.drainSt v a b).1 = .error "drain range out of bounds" ∧
    (Oxide.Vec.drainSt v a b).2 = v := by
  rw [Oxide.Vec.drainSt, if_pos (by omega)]
  exact ⟨rfl, rfl⟩

/-- Witness for C2: on `[7]`, the reversed range `[2, 1)` and the
overlong range `[0, 5)` both fail without touching the vector. -/
theorem drain_invalid_spec_witness :
    (Oxide.Vec.drainSt ([7] : List Nat) 2 1).1 =
      .error "drain range out of bounds" ∧
    (Oxide.Vec.drainSt ([7] : List Nat) 2 1).2 = [7] ∧
    (Oxide.Vec.drainSt ([7] : List Nat) 0 5).1 =
      .error "drain range out of bounds" := by
  have h1 := drain_invalid_spec ([7] : List Nat) 2 1 (by decide)
  have h2 := drain_invalid_spec ([7] : List Nat) 0 5 (by decide)
  exact ⟨h1.1, h1.2, h2.1⟩
